import Mathlib

/-!
Shallow embedding of `trn_model_gen.py`: a tool that reads boolean gene
rules, invokes an external expression-parsing program per rule, scrapes
`label: equation` lines from its stdout, and assembles a TSV coefficient
matrix with synthesized `EX_`/`AV_` columns and normalized protein rows.

Strings are modelled by Lean `String`; character-level operations
(Python `strip`, `startswith`, `endswith`, slicing, and the two regexes)
are modelled over `String.data : List Char`.  The external parser is an
opaque deterministic function from the rule string to (returncode,
stdout, stderr).  Python `\s` is modelled on its ASCII part and `\d` on
ASCII digits, which covers every token shape the tool manipulates.
-/

namespace Trn

/-- Python whitespace for `str.strip` / regex `\s` (ASCII part). -/
def isPySpace (c : Char) : Bool :=
  c = ' ' || c = '\t' || c = '\n' || c = '\r' || c = Char.ofNat 11 || c = Char.ofNat 12

/-- Python `s.strip()` on a character list. -/
def stripL (l : List Char) : List Char :=
  ((l.dropWhile isPySpace).reverse.dropWhile isPySpace).reverse

/-- Python `s.strip()`. -/
def pyStrip (s : String) : String := ⟨stripL s.data⟩

/-- Python `s.rstrip("\r")`. -/
def rstripCR (s : String) : String :=
  ⟨(s.data.reverse.dropWhile (· = '\r')).reverse⟩

/-- Python `s.endswith(t)`. -/
def sEndsWith (s t : String) : Bool := t.data.isSuffixOf s.data

/-- Python `s.startswith(t)`. -/
def sStartsWith (s t : String) : Bool := t.data.isPrefixOf s.data

/-- Python `s[n:]` (drop the first `n` characters). -/
def sDrop (s : String) (n : Nat) : String := ⟨s.data.drop n⟩

/-- Python `s[:-n]` for `n ≤ len(s)` (drop the last `n` characters). -/
def sDropRight (s : String) (n : Nat) : String :=
  ⟨s.data.take (s.data.length - n)⟩

/-- `protein_base` from the source: `_AC` variables have no protein base;
otherwise the prefixes `NOT_pr_`, `pr_`, `NOT_` are tried in that order. -/
def protein_base (v : String) : Option String :=
  if sEndsWith v "_AC" then none
  else if sStartsWith v "NOT_pr_" then some (sDrop v 7)
  else if sStartsWith v "pr_" then some (sDrop v 3)
  else if sStartsWith v "NOT_" then some (sDrop v 4)
  else none

/-! ### Python dict with insertion order (association list) -/

/-- `mapping.get(k, d)`. -/
def dictGet (m : List (String × Int)) (k : String) (d : Int) : Int :=
  match m with
  | [] => d
  | (k', v) :: rest => if k' = k then v else dictGet rest k d

/-- `mapping[k] = v`: overwrite in place, else append (insertion order). -/
def dictSet (m : List (String × Int)) (k : String) (v : Int) : List (String × Int) :=
  match m with
  | [] => [(k, v)]
  | (k', v') :: rest => if k' = k then (k, v) :: rest else (k', v') :: dictSet rest k v

/-! ### The two regexes

`re.findall(r"([+-]?\d+)\s+(\S+)", eq)` scans left to right without
overlap.  Because `\d`, `\s`, `\S` are pairwise disjoint character
classes and nothing follows `(\S+)`, greedy matching without
backtracking is exact at every position. -/

/-- Try `([+-]?\d+)\s+(\S+)` anchored at the head of `s`; on success
return the signed coefficient, the variable token and the remainder. -/
def matchPairAt (s : List Char) : Option ((Int × String) × List Char) :=
  let signRest : Int × List Char :=
    match s with
    | '+' :: r => (1, r)
    | '-' :: r => (-1, r)
    | r => (1, r)
  let digits := signRest.2.takeWhile Char.isDigit
  if digits = [] then none else
  let r1 := signRest.2.drop digits.length
  let ws := r1.takeWhile isPySpace
  if ws = [] then none else
  let r2 := r1.drop ws.length
  let tok := r2.takeWhile (fun c => !isPySpace c)
  if tok = [] then none else
  some ((signRest.1 * (digits.foldl (fun a c => a * 10 + (Int.ofNat (c.toNat - '0'.toNat))) 0),
         ⟨tok⟩), r2.drop tok.length)

/-- `re.findall` scan: try a match at each position, consume it on
success, else advance one character.  Fuel is the input length; every
successful match consumes at least three characters, so the fuel never
runs out before the input does. -/
def findPairsAux : Nat → List Char → List (Int × String)
  | 0, _ => []
  | _ + 1, [] => []
  | fuel + 1, c :: rest =>
    match matchPairAt (c :: rest) with
    | some (p, rem) => p :: findPairsAux fuel rem
    | none => findPairsAux fuel rest

/-- All `(coefficient, variable)` pairs of an equation string. -/
def findPairs (s : List Char) : List (Int × String) := findPairsAux s.length s

/-- `label_line_re = ^([^\s:]+):\s+(.*\S)\s*$` applied to an already
stripped line (no newlines inside).  Group 1 is the maximal nonempty run
of non-space non-colon characters, which must be followed by `:` and at
least one whitespace; group 2 is the rest with trailing whitespace
stripped, required nonempty. -/
def matchLabelLine (s : List Char) : Option (String × String) :=
  let label := s.takeWhile (fun c => !isPySpace c && c ≠ ':')
  if label = [] then none else
  match s.drop label.length with
  | ':' :: rest =>
    let ws := rest.takeWhile isPySpace
    if ws = [] then none else
    let r := rest.drop ws.length
    let g2 := (r.reverse.dropWhile isPySpace).reverse
    if g2 = [] then none else some (⟨label⟩, ⟨g2⟩)
  | _ => none

/-! ### Python `str.splitlines` (terminators `\r\n`, `\r`, `\n`) -/

def splitlinesGo (acc : List Char) : List Char → List (List Char)
  | [] => if acc.isEmpty then [] else [acc.reverse]
  | '\r' :: '\n' :: rest => acc.reverse :: splitlinesGo [] rest
  | '\n' :: rest => acc.reverse :: splitlinesGo [] rest
  | '\r' :: rest => acc.reverse :: splitlinesGo [] rest
  | c :: rest => splitlinesGo (c :: acc) rest

def pySplitlines (s : String) : List (List Char) := splitlinesGo [] s.data

/-! ### The accumulating state of `main` -/

/-- The result of one external-parser invocation. -/
structure ProcResult where
  returncode : Int
  stdout : String
  stderr : String

/-- The external parser as a deterministic oracle: rule string to
(returncode, stdout, stderr). -/
def ParserEnv : Type := String → ProcResult

/-- `columns` and `all_vars` of `main` (`var_index` is membership in
`allVars`, which is duplicate-free by construction). -/
structure AccState where
  columns : List (String × List (String × Int))
  allVars : List String

/-- `add_var`: register a variable in first-seen order. -/
def addVarL (vs : List String) (n : String) : List String :=
  if n ∈ vs then vs else vs ++ [n]

/-- The mapping built from one equation's pairs: start empty, and per
pair set `mapping[var] = mapping.get(var, 0) + coeff`. -/
def eqMapping (pairs : List (Int × String)) : List (String × Int) :=
  pairs.foldl (fun m p => dictSet m p.2 (dictGet m p.2 0 + p.1)) []

/-- Build one equation column.  The Python loop body updates `mapping`
and calls `add_var` per pair; the two updates are independent, so the
single loop is modelled as two folds. -/
def addColumn (st : AccState) (label : String) (pairs : List (Int × String)) : AccState :=
  { columns := st.columns ++ [(label, eqMapping pairs)],
    allVars := pairs.foldl (fun vs p => addVarL vs p.2) st.allVars }

/-- The stdout-scanning loop: flip `capturing` at the `PRINTING RULES:`
marker, then per line try the label regex, extract pairs, and append a
column when at least one pair was found. -/
def extractLines : List (List Char) → Bool → AccState → AccState
  | [], _, st => st
  | l :: rest, capturing, st =>
    let s := stripL l
    if s = "PRINTING RULES:".data then extractLines rest true st
    else if !capturing then extractLines rest capturing st
    else
      match matchLabelLine s with
      | none => extractLines rest capturing st
      | some (label, eq) =>
        let pairs := findPairs eq.data
        if pairs = [] then extractLines rest capturing st
        else extractLines rest capturing (addColumn st label pairs)

/-- Process one parser stdout. -/
def processStdout (stdout : String) (st : AccState) : AccState :=
  extractLines (pySplitlines stdout) false st

/-- `head, tail = line.split(":", 1); line = head.strip() + " " + tail.strip()`,
applied only when the line contains a colon. -/
def rewriteLine (line : String) : String :=
  if ':' ∈ line.data then
    let head : String := ⟨line.data.takeWhile (· ≠ ':')⟩
    let tail : String := ⟨(line.data.dropWhile (· ≠ ':')).drop 1⟩
    pyStrip head ++ " " ++ pyStrip tail
  else line

/-- The diagnostic printed to stderr when the external parser fails. -/
def failMsg (rc : Int) (idx : Nat) (line : String) (stderr : String) : String :=
  "Parser failed (exit " ++ toString rc ++ ") for line " ++ toString idx ++ ": " ++ line
    ++ "\nSTDERR:\n" ++ stderr

/-- The input loop of `main`: strip each raw line, skip blank and `#`
lines, rewrite the first colon, invoke the parser, fail fast on a
nonzero exit code, otherwise scrape the stdout.  `idx` is the 1-based
line number of the next raw line. -/
def processLines (env : ParserEnv) : List String → Nat → AccState →
    Except (Int × String) AccState
  | [], _, st => .ok st
  | raw :: rest, idx, st =>
    let line := rstripCR (pyStrip raw)
    if line = "" || sStartsWith line "#" then processLines env rest (idx + 1) st
    else
      let line := rewriteLine line
      let proc := env line
      if proc.returncode ≠ 0 then
        .error (proc.returncode, failMsg proc.returncode idx line proc.stderr)
      else processLines env rest (idx + 1) (processStdout proc.stdout st)

/-! ### Normalization and synthesized columns -/

/-- The set of nonempty protein bases of a variable list (Python builds
a `set`; only membership and its sorted enumeration are ever used). -/
def basesList (vars : List String) : List String :=
  (vars.filterMap (fun v =>
    match protein_base v with
    | some b => if b = "" then none else some b
    | none => none)).dedup

/-- String sort, as Python `sorted` (lexicographic on code points). -/
def sortStr (l : List String) : List String :=
  List.insertionSort (· ≤ ·) l

/-- Normalization: for each protein base in sorted order, append the
missing `pr_<b>` and `NOT_pr_<b>` rows. -/
def normalizeVars (vars : List String) : List String :=
  (sortStr (basesList vars)).foldl
    (fun vs b => addVarL (addVarL vs ("pr_" ++ b)) ("NOT_pr_" ++ b)) vars

/-- Gene bases of the final variable set, sorted. -/
def geneBasesSorted (vars : List String) : List String :=
  sortStr ((vars.filterMap (fun v =>
    if sEndsWith v "_AC" then some (sDropRight v 3) else none)).dedup)

/-- Protein bases of the final variable set, sorted (the loop at lines
146-154 skips `_AC` variables and falsy bases). -/
def proteinBasesSorted (vars : List String) : List String :=
  sortStr ((vars.filterMap (fun v =>
    if sEndsWith v "_AC" then none
    else match protein_base v with
         | some b => if b = "" then none else some b
         | none => none)).dedup)

/-- `EX_<g>` columns: `-1` on the `<g>_AC` row, emitted only if that row
exists. -/
def exColumns (vars : List String) : List (String × List (String × Int)) :=
  (geneBasesSorted vars).filterMap (fun g =>
    if (g ++ "_AC") ∈ vars then some ("EX_" ++ g, [(g ++ "_AC", (-1 : Int))]) else none)

/-- The `AV_<b>` mapping: `1` on each of `pr_<b>`, `NOT_pr_<b>`,
`NOT_<b>` that exists as a row, in that insertion order. -/
def avMapping (vars : List String) (b : String) : List (String × Int) :=
  ([("pr_" ++ b), ("NOT_pr_" ++ b), ("NOT_" ++ b)].filter (· ∈ vars)).map
    (fun c => (c, (1 : Int)))

/-- `AV_<b>` columns; the column is skipped when the mapping is empty. -/
def avColumns (vars : List String) : List (String × List (String × Int)) :=
  (proteinBasesSorted vars).filterMap (fun b =>
    if avMapping vars b = [] then none else some ("AV_" ++ b, avMapping vars b))

/-! ### Emission -/

/-- One data row: the variable name, then each column's value with
default `0`. -/
def renderRow (cols : List (String × List (String × Int))) (v : String) : List String :=
  v :: cols.map (fun c => toString (dictGet c.2 v 0))

/-- The whole table: header, then one row per variable in sorted order. -/
def emitTable (cols : List (String × List (String × Int))) (vars : List String) :
    List (List String) :=
  ("variable" :: cols.map Prod.fst) :: (sortStr vars).map (renderRow cols)

/-- Tab-join each row and newline-terminate it, as `print` does. -/
def renderTSV (table : List (List String)) : String :=
  String.join (table.map (fun row => String.intercalate "\t" row ++ "\n"))

/-- The final column list: input-derived columns in accumulation order,
then `EX_` columns, then `AV_` columns. -/
def allColumns (st : AccState) : List (String × List (String × Int)) :=
  st.columns ++ exColumns (normalizeVars st.allVars) ++ avColumns (normalizeVars st.allVars)

/-- The whole tool on an input line list: either (exit code, stderr
diagnostic) or the emitted TSV text. -/
def runModel (env : ParserEnv) (lines : List String) : Except (Int × String) String :=
  match processLines env lines 1 ⟨[], []⟩ with
  | .error e => .error e
  | .ok st => .ok (renderTSV (emitTable (allColumns st) (normalizeVars st.allVars)))

/-! ## Helper lemmas: dictionaries -/

theorem dictGet_of_forall_ne (m : List (String × Int)) (k : String) (d : Int)
    (h : ∀ p ∈ m, p.1 ≠ k) : dictGet m k d = d := by
  induction m with
  | nil => rfl
  | cons p rest ih =>
    obtain ⟨k', v⟩ := p
    simp only [dictGet]
    rw [if_neg (h (k', v) (List.mem_cons_self _ _))]
    exact ih fun q hq => h q (List.mem_cons_of_mem _ hq)

theorem dictGet_dictSet_self (m : List (String × Int)) (k : String) (x d : Int) :
    dictGet (dictSet m k x) k d = x := by
  induction m with
  | nil => simp [dictGet, dictSet]
  | cons p rest ih =>
    obtain ⟨k', v⟩ := p
    by_cases h : k' = k
    · simp [dictGet, dictSet, h]
    · simp only [dictSet, if_neg h, dictGet]
      exact ih

theorem dictGet_dictSet_ne (m : List (String × Int)) (k k' : String) (x d : Int)
    (h : k' ≠ k) : dictGet (dictSet m k x) k' d = dictGet m k' d := by
  induction m with
  | nil =>
    simp only [dictSet, dictGet]
    rw [if_neg fun hh => h hh.symm]
  | cons p rest ih =>
    obtain ⟨k'', v⟩ := p
    by_cases hk : k'' = k
    · subst hk
      have hne : ¬ k'' = k' := fun hh => h hh.symm
      simp [dictGet, dictSet, hne]
    · simp only [dictSet, if_neg hk, dictGet]
      by_cases hk' : k'' = k'
      · simp [hk']
      · rw [if_neg hk', if_neg hk']
        exact ih

theorem dictGet_foldl_pairs (pairs : List (Int × String)) (m : List (String × Int)) (v : String) :
    dictGet (pairs.foldl (fun m p => dictSet m p.2 (dictGet m p.2 0 + p.1)) m) v 0
      = dictGet m v 0 + ((pairs.filter (fun p => p.2 = v)).map Prod.fst).sum := by
  induction pairs generalizing m with
  | nil => simp
  | cons p rest ih =>
    simp only [List.foldl_cons, List.filter_cons]
    by_cases h : p.2 = v
    · rw [if_pos (by simp [h]), ih]
      simp only [List.map_cons, List.sum_cons, h]
      rw [dictGet_dictSet_self]
      ring
    · rw [if_neg (by simp [h]), ih, dictGet_dictSet_ne _ _ _ _ _ fun hh => h hh.symm]

/-! ## Helper lemmas: string primitives -/

theorem data_mk (l : List Char) : (String.mk l).data = l := rfl

theorem sStartsWith_iff (s t : String) : sStartsWith s t = true ↔ t.data <+: s.data := by
  simp [sStartsWith, List.isPrefixOf_iff_prefix]

theorem sEndsWith_iff (s t : String) : sEndsWith s t = true ↔ t.data <:+ s.data := by
  simp [sEndsWith, List.isSuffixOf_iff_suffix]

theorem sStartsWith_decomp (s t : String) (h : sStartsWith s t = true) :
    s = t ++ sDrop s t.data.length := by
  obtain ⟨u, hu⟩ := (sStartsWith_iff s t).mp h
  apply String.ext
  simp only [String.data_append, sDrop, data_mk]
  rw [← hu, List.drop_left]

theorem sEndsWith_decomp (s t : String) (h : sEndsWith s t = true) :
    s = sDropRight s t.data.length ++ t := by
  obtain ⟨u, hu⟩ := (sEndsWith_iff s t).mp h
  apply String.ext
  simp only [String.data_append, sDropRight, data_mk]
  have hlen : s.data.length - t.data.length = u.length := by
    rw [← hu]; simp
  rw [hlen, ← hu, List.take_left]

/-! ## Helper lemmas: variable registration and normalization -/

theorem mem_addVarL (vs : List String) (n x : String) :
    x ∈ addVarL vs n ↔ x ∈ vs ∨ x = n := by
  by_cases h : n ∈ vs
  · simp only [addVarL, if_pos h]
    exact ⟨Or.inl, fun hx => hx.elim id (fun hxn => hxn ▸ h)⟩
  · simp [addVarL, if_neg h]

theorem self_mem_addVarL (vs : List String) (n : String) : n ∈ addVarL vs n :=
  (mem_addVarL vs n n).mpr (Or.inr rfl)

theorem nodup_addVarL (vs : List String) (n : String) (h : vs.Nodup) :
    (addVarL vs n).Nodup := by
  by_cases hn : n ∈ vs
  · simpa [addVarL, if_pos hn] using h
  · simp [addVarL, if_neg hn, List.nodup_append, h, hn]

/-- The step of the normalization fold at line 137-141. -/
def normStep (vs : List String) (b : String) : List String :=
  addVarL (addVarL vs ("pr_" ++ b)) ("NOT_pr_" ++ b)

theorem normalizeVars_eq_foldl (vars : List String) :
    normalizeVars vars = (sortStr (basesList vars)).foldl normStep vars := rfl

theorem mem_foldl_normStep_of_mem (bs vs : List String) (x : String) (h : x ∈ vs) :
    x ∈ bs.foldl normStep vs := by
  induction bs generalizing vs with
  | nil => exact h
  | cons b rest ih =>
    exact ih _ ((mem_addVarL _ _ _).mpr (Or.inl ((mem_addVarL _ _ _).mpr (Or.inl h))))

theorem pair_mem_foldl_normStep (bs vs : List String) (b : String) (h : b ∈ bs) :
    ("pr_" ++ b) ∈ bs.foldl normStep vs ∧ ("NOT_pr_" ++ b) ∈ bs.foldl normStep vs := by
  induction bs generalizing vs with
  | nil => cases h
  | cons b0 rest ih =>
    rcases List.mem_cons.mp h with hb | hb
    · subst hb
      constructor
      · exact mem_foldl_normStep_of_mem rest _ _
          ((mem_addVarL _ _ _).mpr (Or.inl (self_mem_addVarL _ _)))
      · exact mem_foldl_normStep_of_mem rest _ _ (self_mem_addVarL _ _)
    · exact ih _ hb

theorem mem_foldl_normStep (bs vs : List String) (x : String)
    (h : x ∈ bs.foldl normStep vs) :
    x ∈ vs ∨ ∃ b ∈ bs, x = "pr_" ++ b ∨ x = "NOT_pr_" ++ b := by
  induction bs generalizing vs with
  | nil => exact Or.inl h
  | cons b0 rest ih =>
    rcases ih _ h with hvs | ⟨b, hb, hx⟩
    · rcases (mem_addVarL _ _ _).mp hvs with hvs' | hx
      · rcases (mem_addVarL _ _ _).mp hvs' with hvs'' | hx
        · exact Or.inl hvs''
        · exact Or.inr ⟨b0, List.mem_cons_self _ _, Or.inl hx⟩
      · exact Or.inr ⟨b0, List.mem_cons_self _ _, Or.inr hx⟩
    · exact Or.inr ⟨b, List.mem_cons_of_mem _ hb, hx⟩

theorem nodup_foldl_normStep (bs vs : List String) (h : vs.Nodup) :
    (bs.foldl normStep vs).Nodup := by
  induction bs generalizing vs with
  | nil => exact h
  | cons b rest ih => exact ih _ (nodup_addVarL _ _ (nodup_addVarL _ _ h))

theorem mem_normalizeVars_of_mem (vars : List String) (v : String) (h : v ∈ vars) :
    v ∈ normalizeVars vars :=
  mem_foldl_normStep_of_mem _ _ _ h

theorem nodup_normalizeVars (vars : List String) (h : vars.Nodup) :
    (normalizeVars vars).Nodup :=
  nodup_foldl_normStep _ _ h

theorem mem_basesList (vars : List String) (b : String) :
    b ∈ basesList vars ↔ b ≠ "" ∧ ∃ v ∈ vars, protein_base v = some b := by
  unfold basesList
  rw [List.mem_dedup, List.mem_filterMap]
  constructor
  · rintro ⟨v, hv, hfn⟩
    cases hpb : protein_base v with
    | none => rw [hpb] at hfn; simp at hfn
    | some b' =>
      rw [hpb] at hfn
      by_cases hb : b' = ""
      · simp [hb] at hfn
      · simp only [if_neg hb, Option.some.injEq] at hfn
        subst hfn
        exact ⟨hb, v, hv, hpb⟩
  · rintro ⟨hb, v, hv, hpb⟩
    exact ⟨v, hv, by rw [hpb]; simp [hb]⟩

theorem normalizeVars_adds (vars : List String) (b : String) (h : b ∈ basesList vars) :
    ("pr_" ++ b) ∈ normalizeVars vars ∧ ("NOT_pr_" ++ b) ∈ normalizeVars vars := by
  rw [normalizeVars_eq_foldl]
  exact pair_mem_foldl_normStep _ _ _ (by simpa [sortStr, List.mem_insertionSort] using h)

theorem mem_normalizeVars (vars : List String) (x : String) (h : x ∈ normalizeVars vars) :
    x ∈ vars ∨ ∃ b ∈ basesList vars, x = "pr_" ++ b ∨ x = "NOT_pr_" ++ b := by
  rw [normalizeVars_eq_foldl] at h
  rcases mem_foldl_normStep _ _ _ h with hv | ⟨b, hb, hx⟩
  · exact Or.inl hv
  · exact Or.inr ⟨b, by simpa [sortStr, List.mem_insertionSort] using hb, hx⟩

theorem protein_base_none_of_AC (v : String) (h : sEndsWith v "_AC" = true) :
    protein_base v = none := by
  simp [protein_base, h]

theorem mem_proteinBasesSorted (vars : List String) (b : String) :
    b ∈ proteinBasesSorted vars ↔ b ≠ "" ∧ ∃ v ∈ vars, protein_base v = some b := by
  unfold proteinBasesSorted
  rw [sortStr, List.mem_insertionSort, List.mem_dedup, List.mem_filterMap]
  constructor
  · rintro ⟨v, hv, hfn⟩
    by_cases hAC : sEndsWith v "_AC"
    · rw [if_pos hAC] at hfn; cases hfn
    · rw [if_neg hAC] at hfn
      cases hpb : protein_base v with
      | none => rw [hpb] at hfn; simp at hfn
      | some b' =>
        rw [hpb] at hfn
        by_cases hb : b' = ""
        · simp [hb] at hfn
        · simp only [if_neg hb, Option.some.injEq] at hfn
          subst hfn
          exact ⟨hb, v, hv, hpb⟩
  · rintro ⟨hb, v, hv, hpb⟩
    have hAC : sEndsWith v "_AC" = false := by
      cases hAC : sEndsWith v "_AC"
      · rfl
      · rw [protein_base_none_of_AC v hAC] at hpb; cases hpb
    exact ⟨v, hv, by rw [hAC, hpb]; simp [hb]⟩

/-! ## Claims C5 and C6 -/

/-- Claim C5: within one matched equation line, repeated occurrences of
the same variable sum their coefficients — the column appended by
`addColumn` carries `eqMapping pairs`, which maps every variable to the
integer sum of the coefficients of all pairs naming it. -/
theorem C5_repeated_variable_sums (st : AccState) (label : String)
    (pairs : List (Int × String)) (v : String) :
    (addColumn st label pairs).columns = st.columns ++ [(label, eqMapping pairs)] ∧
    dictGet (eqMapping pairs) v 0
      = ((pairs.filter (fun p => p.2 = v)).map Prod.fst).sum := by
  refine ⟨rfl, ?_⟩
  have h := dictGet_foldl_pairs pairs [] v
  simpa [eqMapping, dictGet] using h

/-- Claim C6: `protein_base` follows the exact precedence: a variable
ending in `_AC` has no base; otherwise the prefixes `NOT_pr_`, `pr_`,
`NOT_` are tried in that order and the base is the remainder after the
matching prefix; otherwise there is no base. -/
theorem C6_protein_base_precedence (v : String) :
    (sEndsWith v "_AC" = true → protein_base v = none) ∧
    (sEndsWith v "_AC" = false → sStartsWith v "NOT_pr_" = true →
      protein_base v = some (sDrop v 7) ∧ v = "NOT_pr_" ++ sDrop v 7) ∧
    (sEndsWith v "_AC" = false → sStartsWith v "NOT_pr_" = false →
      sStartsWith v "pr_" = true →
      protein_base v = some (sDrop v 3) ∧ v = "pr_" ++ sDrop v 3) ∧
    (sEndsWith v "_AC" = false → sStartsWith v "NOT_pr_" = false →
      sStartsWith v "pr_" = false → sStartsWith v "NOT_" = true →
      protein_base v = some (sDrop v 4) ∧ v = "NOT_" ++ sDrop v 4) ∧
    (sEndsWith v "_AC" = false → sStartsWith v "NOT_pr_" = false →
      sStartsWith v "pr_" = false → sStartsWith v "NOT_" = false →
      protein_base v = none) := by
  refine ⟨?_, ?_, ?_, ?_, ?_⟩
  · intro h1
    simp [protein_base, h1]
  · intro h1 h2
    refine ⟨by simp [protein_base, h1, h2], ?_⟩
    have h := sStartsWith_decomp v "NOT_pr_" h2
    rwa [show ("NOT_pr_" : String).data.length = 7 from rfl] at h
  · intro h1 h2 h3
    refine ⟨by simp [protein_base, h1, h2, h3], ?_⟩
    have h := sStartsWith_decomp v "pr_" h3
    rwa [show ("pr_" : String).data.length = 3 from rfl] at h
  · intro h1 h2 h3 h4
    refine ⟨by simp [protein_base, h1, h2, h3, h4], ?_⟩
    have h := sStartsWith_decomp v "NOT_" h4
    rwa [show ("NOT_" : String).data.length = 4 from rfl] at h
  · intro h1 h2 h3 h4
    simp [protein_base, h1, h2, h3, h4]

/-- Claim C1: every protein base derivable from an observed variable
yields both rows `pr_<b>` and `NOT_pr_<b>` in the emitted matrix, and a
column mapping that never references such a row contributes the default
cell value `0` there. -/
theorem C1_protein_rows_present (vars : List String) (v b : String)
    (hv : v ∈ vars) (hpb : protein_base v = some b) (hb : b ≠ "") :
    (("pr_" ++ b) ∈ normalizeVars vars ∧ ("NOT_pr_" ++ b) ∈ normalizeVars vars) ∧
    (∀ cols, renderRow cols ("pr_" ++ b) ∈ emitTable cols (normalizeVars vars) ∧
      renderRow cols ("NOT_pr_" ++ b) ∈ emitTable cols (normalizeVars vars)) ∧
    (∀ m : List (String × Int), (∀ p ∈ m, p.1 ≠ "pr_" ++ b) →
      dictGet m ("pr_" ++ b) 0 = 0) ∧
    (∀ m : List (String × Int), (∀ p ∈ m, p.1 ≠ "NOT_pr_" ++ b) →
      dictGet m ("NOT_pr_" ++ b) 0 = 0) := by
  have hbase : b ∈ basesList vars := (mem_basesList vars b).mpr ⟨hb, v, hv, hpb⟩
  obtain ⟨h1, h2⟩ := normalizeVars_adds vars b hbase
  refine ⟨⟨h1, h2⟩, ?_, fun m hm => dictGet_of_forall_ne m _ 0 hm,
    fun m hm => dictGet_of_forall_ne m _ 0 hm⟩
  intro cols
  constructor
  · exact List.mem_cons_of_mem _ (List.mem_map_of_mem _
      (by simpa [sortStr, List.mem_insertionSort] using h1))
  · exact List.mem_cons_of_mem _ (List.mem_map_of_mem _
      (by simpa [sortStr, List.mem_insertionSort] using h2))

/-- Witness for C1: the single variable `NOT_X` makes both `pr_X` and
`NOT_pr_X` rows of the matrix. -/
theorem C1_witness :
    (("pr_" ++ "X") ∈ normalizeVars ["NOT_X"] ∧
      ("NOT_pr_" ++ "X") ∈ normalizeVars ["NOT_X"]) ∧
    (∀ cols, renderRow cols ("pr_" ++ "X") ∈ emitTable cols (normalizeVars ["NOT_X"]) ∧
      renderRow cols ("NOT_pr_" ++ "X") ∈ emitTable cols (normalizeVars ["NOT_X"])) ∧
    (∀ m : List (String × Int), (∀ p ∈ m, p.1 ≠ "pr_" ++ "X") →
      dictGet m ("pr_" ++ "X") 0 = 0) ∧
    (∀ m : List (String × Int), (∀ p ∈ m, p.1 ≠ "NOT_pr_" ++ "X") →
      dictGet m ("NOT_pr_" ++ "X") 0 = 0) :=
  C1_protein_rows_present ["NOT_X"] "NOT_X" "X" (by decide) (by decide) (by decide)

/-- Claim C10: a variable that is exactly a bare prefix (`pr_`,
`NOT_pr_`, `NOT_`) derives the empty-string base, which the truthiness
check discards: the empty base never enters the base set, normalization
never synthesizes the rows `pr_` or `NOT_pr_` for it, and no `AV_`
column with an empty base is emitted. -/
theorem C10_empty_base_discarded :
    protein_base "pr_" = some "" ∧ protein_base "NOT_pr_" = some "" ∧
    protein_base "NOT_" = some "" ∧
    (∀ vars : List String, "" ∉ basesList vars) ∧
    (∀ vars : List String, "pr_" ∈ normalizeVars vars → "pr_" ∈ vars) ∧
    (∀ vars : List String, "NOT_pr_" ∈ normalizeVars vars → "NOT_pr_" ∈ vars) ∧
    (∀ (vars : List String) (lbl : String) (m : List (String × Int)),
      (lbl, m) ∈ avColumns vars → lbl ≠ "AV_") := by
  refine ⟨by decide, by decide, by decide, ?_, ?_, ?_, ?_⟩
  · intro vars hmem
    exact ((mem_basesList vars "").mp hmem).1 rfl
  · intro vars hmem
    rcases mem_normalizeVars vars _ hmem with h | ⟨b, hb, hx | hx⟩
    · exact h
    · exfalso
      have hlen := congrArg (fun s => s.data.length) hx
      simp only [String.data_append] at hlen
      have hnil : b.data = [] :=
        List.eq_nil_of_length_eq_zero (by simpa using hlen)
      exact ((mem_basesList vars b).mp hb).1 (String.ext hnil)
    · exfalso
      have hlen := congrArg (fun s => s.data.length) hx
      simp only [String.data_append] at hlen
      simp at hlen
  · intro vars hmem
    rcases mem_normalizeVars vars _ hmem with h | ⟨b, hb, hx | hx⟩
    · exact h
    · exfalso
      have hdata := congrArg String.data hx
      rw [String.data_append] at hdata
      have : (['N', 'O', 'T', '_', 'p', 'r', '_'] : List Char)
          = 'p' :: 'r' :: '_' :: b.data := hdata
      injection this with h1 _
      exact absurd h1 (by decide)
    · exfalso
      have hlen := congrArg (fun s => s.data.length) hx
      simp only [String.data_append] at hlen
      have : (7 : Nat) = 7 + b.data.length := by simpa using hlen
      have hnil : b.data = [] := List.eq_nil_of_length_eq_zero (by omega)
      exact ((mem_basesList vars b).mp hb).1 (String.ext hnil)
  · intro vars lbl m hmem hlbl
    rcases List.mem_filterMap.mp hmem with ⟨b, hb, hfn⟩
    by_cases hav : avMapping vars b = []
    · rw [if_pos hav] at hfn; cases hfn
    · rw [if_neg hav] at hfn
      have hlbl' : "AV_" ++ b = lbl := congrArg Prod.fst (Option.some.inj hfn)
      have hb0 : b ≠ "" := ((mem_proteinBasesSorted vars b).mp hb).1
      apply hb0
      have := hlbl'.trans hlbl
      have hlen := congrArg (fun s => s.data.length) this
      simp only [String.data_append] at hlen
      exact String.ext (List.eq_nil_of_length_eq_zero (by simpa using hlen))

/-- Witness for C10: `pr_` present as an input variable reaches the
output unchanged but synthesizes nothing, and a genuine base `X` yields
the only `AV_` label. -/
theorem C10_witness :
    "pr_" ∈ (["pr_"] : List String) ∧ ("AV_" ++ "X" : String) ≠ "AV_" :=
  ⟨C10_empty_base_discarded.2.2.2.2.1 ["pr_"] (by decide),
   C10_empty_base_discarded.2.2.2.2.2.2 ["pr_X"] ("AV_" ++ "X") [("pr_X", 1)] (by decide)⟩

/-! ## Helper lemmas: gene bases and `EX_` columns -/

theorem filterMap_eq_map_of_forall {α β : Type} (l : List α) (f : α → Option β)
    (g : α → β) (h : ∀ a ∈ l, f a = some (g a)) : l.filterMap f = l.map g := by
  induction l with
  | nil => rfl
  | cons a rest ih =>
    rw [List.filterMap_cons, h a (List.mem_cons_self _ _), List.map_cons,
      ih fun a ha => h a (List.mem_cons_of_mem _ ha)]

theorem append_cancel_str (p s t : String) (h : p ++ s = p ++ t) : s = t := by
  apply String.ext
  have hd := congrArg String.data h
  rw [String.data_append, String.data_append] at hd
  exact List.append_cancel_left hd

theorem mem_geneBasesSorted (vars : List String) (g : String) :
    g ∈ geneBasesSorted vars ↔
      ∃ v ∈ vars, sEndsWith v "_AC" = true ∧ g = sDropRight v 3 := by
  unfold geneBasesSorted
  rw [sortStr, List.mem_insertionSort, List.mem_dedup, List.mem_filterMap]
  constructor
  · rintro ⟨v, hv, hfn⟩
    by_cases hAC : sEndsWith v "_AC"
    · rw [if_pos hAC, Option.some.injEq] at hfn
      exact ⟨v, hv, hAC, hfn.symm⟩
    · rw [if_neg hAC] at hfn; cases hfn
  · rintro ⟨v, hv, hAC, hg⟩
    exact ⟨v, hv, by rw [if_pos hAC, hg]⟩

theorem geneBase_row_mem (vars : List String) (g : String)
    (hg : g ∈ geneBasesSorted vars) : (g ++ "_AC") ∈ vars := by
  obtain ⟨v, hv, hAC, hgv⟩ := (mem_geneBasesSorted vars g).mp hg
  have hdec := sEndsWith_decomp v "_AC" hAC
  rw [show ("_AC" : String).data.length = 3 from rfl] at hdec
  rw [hgv, ← hdec]
  exact hv

theorem nodup_geneBasesSorted (vars : List String) : (geneBasesSorted vars).Nodup :=
  (List.perm_insertionSort _ _).nodup_iff.mpr (List.nodup_dedup _)

theorem exColumns_eq_map (vars : List String) :
    exColumns vars = (geneBasesSorted vars).map
      (fun g => ("EX_" ++ g, [(g ++ "_AC", (-1 : Int))])) := by
  unfold exColumns
  exact filterMap_eq_map_of_forall _ _ _
    (fun g hg => by rw [if_pos (geneBase_row_mem vars g hg)])

/-- Claim C3: for every observed gene base `g`, exactly one `EX_<g>`
column is appended, and its mapping is `-1` at row `<g>_AC` and `0`
everywhere else. -/
theorem C3_ex_column_unique (vars : List String) (g : String)
    (hg : g ∈ geneBasesSorted vars) :
    (g ++ "_AC") ∈ vars ∧
    ("EX_" ++ g, [(g ++ "_AC", (-1 : Int))]) ∈ exColumns vars ∧
    ((exColumns vars).map Prod.fst).count ("EX_" ++ g) = 1 ∧
    dictGet [(g ++ "_AC", (-1 : Int))] (g ++ "_AC") 0 = -1 ∧
    (∀ v : String, v ≠ g ++ "_AC" → dictGet [(g ++ "_AC", (-1 : Int))] v 0 = 0) := by
  have hinj : Function.Injective (fun g : String => "EX_" ++ g) :=
    fun a b h => append_cancel_str "EX_" a b h
  have hlabels : (exColumns vars).map Prod.fst
      = (geneBasesSorted vars).map (fun g => "EX_" ++ g) := by
    rw [exColumns_eq_map, List.map_map]
    rfl
  refine ⟨geneBase_row_mem vars g hg, ?_, ?_, by simp [dictGet], ?_⟩
  · rw [exColumns_eq_map]
    exact List.mem_map_of_mem _ hg
  · rw [hlabels]
    exact List.count_eq_one_of_mem ((nodup_geneBasesSorted vars).map hinj)
      (List.mem_map_of_mem _ hg)
  · intro v hvne
    exact dictGet_of_forall_ne _ _ _ (by simpa using fun h => hvne h.symm)

/-- Witness for C3: the single variable `G_AC` produces the one column
`EX_G` with `-1` at row `G_AC`. -/
theorem C3_witness :
    ("G" ++ "_AC") ∈ (["G_AC"] : List String) ∧
    ("EX_" ++ "G", [("G" ++ "_AC", (-1 : Int))]) ∈ exColumns ["G_AC"] ∧
    ((exColumns ["G_AC"]).map Prod.fst).count ("EX_" ++ "G") = 1 ∧
    dictGet [("G" ++ "_AC", (-1 : Int))] ("G" ++ "_AC") 0 = -1 ∧
    (∀ v : String, v ≠ "G" ++ "_AC" → dictGet [("G" ++ "_AC", (-1 : Int))] v 0 = 0) :=
  C3_ex_column_unique ["G_AC"] "G" (by decide)

/-! ## Helper lemmas: protein bases survive normalization

A base obtained by stripping one of the three prefixes never ends in
`_AC` and never equals `AC` (else the stripped variable would itself
end in `_AC`), so `protein_base` applied to a synthesized `pr_<b>` or
`NOT_pr_<b>` row returns `some b` again. -/

theorem sEndsWith_eq_isPrefixOf_reverse (s t : String) :
    sEndsWith s t = t.data.reverse.isPrefixOf s.data.reverse := rfl

theorem endsAC_append_false (pfx b : String) (rp : List Char)
    (hp : pfx.data.reverse = '_' :: rp)
    (hAC : sEndsWith b "_AC" = false) (hb2 : b ≠ "AC") :
    sEndsWith (pfx ++ b) "_AC" = false := by
  have hrev : (pfx ++ b).data.reverse = b.data.reverse ++ ('_' :: rp) := by
    rw [String.data_append, List.reverse_append, hp]
  have hb' : ¬ (List.isPrefixOf ['C', 'A', '_'] b.data.reverse = true) := by
    rw [← show ("_AC" : String).data.reverse = ['C', 'A', '_'] from rfl,
      ← sEndsWith_eq_isPrefixOf_reverse, hAC]
    simp
  rw [sEndsWith_eq_isPrefixOf_reverse, hrev,
    show ("_AC" : String).data.reverse = ['C', 'A', '_'] from rfl]
  rcases hbd : b.data.reverse with _ | ⟨x, _ | ⟨y, _ | ⟨z, t⟩⟩⟩
  · simp [List.isPrefixOf, show (('C' : Char) == '_') = false from rfl]
  · simp [List.isPrefixOf, show (('A' : Char) == '_') = false from rfl]
  · by_cases hxy : x = 'C' ∧ y = 'A'
    · exfalso
      apply hb2
      apply String.ext
      have hb3 : b.data = [y, x] := by
        rw [← List.reverse_reverse b.data, hbd]; rfl
      rw [hb3, hxy.1, hxy.2]
    · rcases not_and_or.mp hxy with hx | hy
      · have hc : (('C' : Char) == x) = false :=
          beq_eq_false_iff_ne.mpr fun hh => hx hh.symm
        simp [List.isPrefixOf, hc]
      · have hc : (('A' : Char) == y) = false :=
          beq_eq_false_iff_ne.mpr fun hh => hy hh.symm
        simp [List.isPrefixOf, hc]
  · by_cases hxyz : x = 'C' ∧ y = 'A' ∧ z = '_'
    · exfalso
      apply hb'
      rw [hbd, hxyz.1, hxyz.2.1, hxyz.2.2]
      simp [List.isPrefixOf]
    · rcases not_and_or.mp hxyz with hx | hyz
      · have hc : (('C' : Char) == x) = false :=
          beq_eq_false_iff_ne.mpr fun hh => hx hh.symm
        simp [List.isPrefixOf, hc]
      · rcases not_and_or.mp hyz with hy | hz
        · have hc : (('A' : Char) == y) = false :=
            beq_eq_false_iff_ne.mpr fun hh => hy hh.symm
          simp [List.isPrefixOf, hc]
        · have hc : (('_' : Char) == z) = false :=
            beq_eq_false_iff_ne.mpr fun hh => hz hh.symm
          simp [List.isPrefixOf, hc]

theorem protein_base_shape (v b : String) (h : protein_base v = some b) :
    sEndsWith v "_AC" = false ∧
    (v = "NOT_pr_" ++ b ∨ v = "pr_" ++ b ∨ v = "NOT_" ++ b) := by
  unfold protein_base at h
  by_cases h1 : sEndsWith v "_AC"
  · rw [if_pos h1] at h; cases h
  · rw [if_neg h1] at h
    refine ⟨by simpa using h1, ?_⟩
    by_cases h2 : sStartsWith v "NOT_pr_"
    · rw [if_pos h2, Option.some.injEq] at h
      left
      have hd := sStartsWith_decomp v "NOT_pr_" h2
      rw [show ("NOT_pr_" : String).data.length = 7 from rfl] at hd
      rw [← h]
      exact hd
    · rw [if_neg h2] at h
      by_cases h3 : sStartsWith v "pr_"
      · rw [if_pos h3, Option.some.injEq] at h
        right; left
        have hd := sStartsWith_decomp v "pr_" h3
        rw [show ("pr_" : String).data.length = 3 from rfl] at hd
        rw [← h]
        exact hd
      · rw [if_neg h3] at h
        by_cases h4 : sStartsWith v "NOT_"
        · rw [if_pos h4, Option.some.injEq] at h
          right; right
          have hd := sStartsWith_decomp v "NOT_" h4
          rw [show ("NOT_" : String).data.length = 4 from rfl] at hd
          rw [← h]
          exact hd
        · rw [if_neg h4] at h; cases h

theorem basesList_props (vars : List String) (b : String) (h : b ∈ basesList vars) :
    sEndsWith b "_AC" = false ∧ b ≠ "AC" ∧ b ≠ "" := by
  obtain ⟨hb, v, hv, hpb⟩ := (mem_basesList vars b).mp h
  obtain ⟨hAC, hshape⟩ := protein_base_shape v b hpb
  constructor
  · cases hend : sEndsWith b "_AC"
    · rfl
    · exfalso
      have : sEndsWith v "_AC" = true := by
        rcases hshape with h' | h' | h' <;>
          · subst h'
            rw [sEndsWith_iff, String.data_append]
            exact ((sEndsWith_iff b "_AC").mp hend).trans (List.suffix_append _ _)
      rw [this] at hAC; cases hAC
  · constructor
    · rintro rfl
      rcases hshape with h' | h' | h' <;> (subst h'; exact absurd hAC (by decide))
    · exact hb

theorem protein_base_pr_append (b : String) (hAC : sEndsWith b "_AC" = false)
    (hb2 : b ≠ "AC") : protein_base ("pr_" ++ b) = some b := by
  have h1 : sEndsWith ("pr_" ++ b) "_AC" = false :=
    endsAC_append_false "pr_" b ['r', 'p'] rfl hAC hb2
  have h2 : sStartsWith ("pr_" ++ b) "NOT_pr_" = false := rfl
  have h3 : sStartsWith ("pr_" ++ b) "pr_" = true := by
    simp [sStartsWith, List.isPrefixOf]
  unfold protein_base
  rw [if_neg (by simp [h1]), if_neg (by simp [h2]), if_pos h3]
  rfl

theorem protein_base_NOT_pr_append (b : String) (hAC : sEndsWith b "_AC" = false)
    (hb2 : b ≠ "AC") : protein_base ("NOT_pr_" ++ b) = some b := by
  have h1 : sEndsWith ("NOT_pr_" ++ b) "_AC" = false :=
    endsAC_append_false "NOT_pr_" b ['r', 'p', '_', 'T', 'O', 'N'] rfl hAC hb2
  have h2 : sStartsWith ("NOT_pr_" ++ b) "NOT_pr_" = true := by
    simp [sStartsWith, List.isPrefixOf]
  unfold protein_base
  rw [if_neg (by simp [h1]), if_pos h2]
  rfl

theorem mem_basesList_normalizeVars (vars : List String) (b : String) :
    b ∈ basesList (normalizeVars vars) ↔ b ∈ basesList vars := by
  constructor
  · intro h
    obtain ⟨hb, v, hv, hpb⟩ := (mem_basesList _ _).mp h
    rcases mem_normalizeVars vars v hv with hvv | ⟨b', hb', hx | hx⟩
    · exact (mem_basesList _ _).mpr ⟨hb, v, hvv, hpb⟩
    · subst hx
      obtain ⟨hAC', hb2', _⟩ := basesList_props vars b' hb'
      rw [protein_base_pr_append b' hAC' hb2'] at hpb
      cases hpb
      exact hb'
    · subst hx
      obtain ⟨hAC', hb2', _⟩ := basesList_props vars b' hb'
      rw [protein_base_NOT_pr_append b' hAC' hb2'] at hpb
      cases hpb
      exact hb'
  · intro h
    obtain ⟨hb, v, hv, hpb⟩ := (mem_basesList _ _).mp h
    exact (mem_basesList _ _).mpr ⟨hb, v, mem_normalizeVars_of_mem _ _ hv, hpb⟩

theorem append_ne_append_of_length (p q b : String)
    (h : p.data.length ≠ q.data.length) : (p ++ b : String) ≠ q ++ b := by
  intro hh
  have hlen := congrArg (fun s => s.data.length) hh
  simp only [String.data_append, List.length_append] at hlen
  omega

theorem avMapping_explicit (vars : List String) (b : String)
    (h1 : ("pr_" ++ b) ∈ vars) (h2 : ("NOT_pr_" ++ b) ∈ vars) :
    avMapping vars b = ("pr_" ++ b, (1 : Int)) :: ("NOT_pr_" ++ b, (1 : Int)) ::
      (if ("NOT_" ++ b) ∈ vars then [("NOT_" ++ b, (1 : Int))] else []) := by
  unfold avMapping
  by_cases h3 : ("NOT_" ++ b) ∈ vars <;> simp [List.filter_cons, h1, h2, h3]

theorem avMapping_facts (vars : List String) (b : String)
    (hb : b ∈ proteinBasesSorted (normalizeVars vars)) :
    ("pr_" ++ b) ∈ normalizeVars vars ∧ ("NOT_pr_" ++ b) ∈ normalizeVars vars ∧
    avMapping (normalizeVars vars) b ≠ [] ∧
    dictGet (avMapping (normalizeVars vars) b) ("pr_" ++ b) 0 = 1 ∧
    dictGet (avMapping (normalizeVars vars) b) ("NOT_pr_" ++ b) 0 = 1 := by
  obtain ⟨hb0, v, hv, hpb⟩ := (mem_proteinBasesSorted _ b).mp hb
  have hbase : b ∈ basesList vars :=
    (mem_basesList_normalizeVars vars b).mp ((mem_basesList _ b).mpr ⟨hb0, v, hv, hpb⟩)
  obtain ⟨h1, h2⟩ := normalizeVars_adds vars b hbase
  have hexp := avMapping_explicit (normalizeVars vars) b h1 h2
  have hne : ("pr_" ++ b : String) ≠ "NOT_pr_" ++ b :=
    append_ne_append_of_length _ _ _ (by decide)
  refine ⟨h1, h2, by rw [hexp]; simp, ?_, ?_⟩
  · rw [hexp]; simp [dictGet]
  · rw [hexp]
    simp [dictGet, if_neg hne]

/-- Claim C4: every protein base of the final variable set yields an
`AV_` column whose mapping holds `+1` at both `pr_<b>` and
`NOT_pr_<b>` (normalization registered both rows), so the defensive
empty-mapping skip never fires and no base is dropped. -/
theorem avColumns_normalize_eq_map (vars : List String) :
    avColumns (normalizeVars vars)
      = (proteinBasesSorted (normalizeVars vars)).map
          (fun b => ("AV_" ++ b, avMapping (normalizeVars vars) b)) := by
  apply filterMap_eq_map_of_forall
  intro b hb
  rw [if_neg (avMapping_facts vars b hb).2.2.1]

theorem C4_av_column_never_skipped (vars : List String) :
    (∀ b ∈ proteinBasesSorted (normalizeVars vars),
      ("pr_" ++ b) ∈ normalizeVars vars ∧ ("NOT_pr_" ++ b) ∈ normalizeVars vars ∧
      avMapping (normalizeVars vars) b ≠ [] ∧
      dictGet (avMapping (normalizeVars vars) b) ("pr_" ++ b) 0 = 1 ∧
      dictGet (avMapping (normalizeVars vars) b) ("NOT_pr_" ++ b) 0 = 1 ∧
      ("AV_" ++ b, avMapping (normalizeVars vars) b) ∈ avColumns (normalizeVars vars)) ∧
    (avColumns (normalizeVars vars)).length
      = (proteinBasesSorted (normalizeVars vars)).length := by
  have hcols := avColumns_normalize_eq_map vars
  constructor
  · intro b hb
    obtain ⟨h1, h2, h3, h4, h5⟩ := avMapping_facts vars b hb
    refine ⟨h1, h2, h3, h4, h5, ?_⟩
    rw [hcols]
    exact List.mem_map_of_mem _ hb
  · rw [hcols, List.length_map]

/-- Witness for C4 on the single observed variable `NOT_X`. -/
theorem C4_witness :
    ("pr_" ++ "X") ∈ normalizeVars ["NOT_X"] ∧
    ("NOT_pr_" ++ "X") ∈ normalizeVars ["NOT_X"] ∧
    avMapping (normalizeVars ["NOT_X"]) "X" ≠ [] ∧
    dictGet (avMapping (normalizeVars ["NOT_X"]) "X") ("pr_" ++ "X") 0 = 1 ∧
    dictGet (avMapping (normalizeVars ["NOT_X"]) "X") ("NOT_pr_" ++ "X") 0 = 1 ∧
    ("AV_" ++ "X", avMapping (normalizeVars ["NOT_X"]) "X")
      ∈ avColumns (normalizeVars ["NOT_X"]) :=
  (C4_av_column_never_skipped ["NOT_X"]).1 "X" (by decide)

/-! ## Helper lemmas: ordering of rows and synthesized column labels -/

theorem list_lt_append_left (p l₁ l₂ : List Char) (h : l₁ < l₂) : p ++ l₁ < p ++ l₂ := by
  induction p with
  | nil => exact h
  | cons a rest ih => exact List.Lex.cons ih

theorem str_lt_append_left (p s t : String) (h : s < t) : p ++ s < p ++ t := by
  rw [String.lt_iff_toList_lt] at h ⊢
  show (p ++ s).data < (p ++ t).data
  rw [String.data_append, String.data_append]
  exact list_lt_append_left p.data s.data t.data h

theorem sorted_lt_sortStr (l : List String) (h : l.Nodup) :
    List.Sorted (· < ·) (sortStr l) :=
  List.Sorted.lt_of_le (List.sorted_insertionSort _ _)
    ((List.perm_insertionSort _ _).nodup_iff.mpr h)

theorem sorted_lt_geneBasesSorted (vars : List String) :
    List.Sorted (· < ·) (geneBasesSorted vars) :=
  sorted_lt_sortStr _ (List.nodup_dedup _)

theorem sorted_lt_proteinBasesSorted (vars : List String) :
    List.Sorted (· < ·) (proteinBasesSorted vars) :=
  sorted_lt_sortStr _ (List.nodup_dedup _)

/-- Claim C7: the emitted table is the header row followed by one row
per variable in strictly lexicographic order (a sorted permutation of
the final variable set); the columns are the rule-derived ones in
accumulation order, then the `EX_` columns in ascending label order,
then the `AV_` columns in ascending label order; each cell is the
column mapping's value at the row variable with default `0`. -/
theorem C7_row_and_column_order (st : AccState) (h : st.allVars.Nodup) :
    allColumns st = st.columns ++ exColumns (normalizeVars st.allVars)
        ++ avColumns (normalizeVars st.allVars) ∧
    List.Sorted (· < ·) (sortStr (normalizeVars st.allVars)) ∧
    (sortStr (normalizeVars st.allVars)).Perm (normalizeVars st.allVars) ∧
    List.Sorted (· < ·) ((exColumns (normalizeVars st.allVars)).map Prod.fst) ∧
    List.Sorted (· < ·) ((avColumns (normalizeVars st.allVars)).map Prod.fst) ∧
    emitTable (allColumns st) (normalizeVars st.allVars)
      = ("variable" :: (allColumns st).map Prod.fst)
        :: (sortStr (normalizeVars st.allVars)).map
            (fun v => v :: (allColumns st).map (fun c => toString (dictGet c.2 v 0))) := by
  refine ⟨rfl, sorted_lt_sortStr _ (nodup_normalizeVars _ h),
    List.perm_insertionSort _ _, ?_, ?_, rfl⟩
  · have hlabels : (exColumns (normalizeVars st.allVars)).map Prod.fst
        = (geneBasesSorted (normalizeVars st.allVars)).map (fun g => "EX_" ++ g) := by
      rw [exColumns_eq_map, List.map_map]
      rfl
    rw [hlabels]
    exact List.Pairwise.map _ (fun a b hab => str_lt_append_left "EX_" a b hab)
      (sorted_lt_geneBasesSorted _)
  · have hlabels : (avColumns (normalizeVars st.allVars)).map Prod.fst
        = (proteinBasesSorted (normalizeVars st.allVars)).map (fun b => "AV_" ++ b) := by
      rw [avColumns_normalize_eq_map, List.map_map]
      rfl
    rw [hlabels]
    exact List.Pairwise.map _ (fun a b hab => str_lt_append_left "AV_" a b hab)
      (sorted_lt_proteinBasesSorted _)

/-- Witness for C7 on a two-variable state. -/
theorem C7_witness :
    List.Sorted (· < ·)
      (sortStr (normalizeVars (AccState.mk [("G1", [("pr_A", (1 : Int))])]
        ["pr_A", "A_AC"]).allVars)) ∧
    List.Sorted (· < ·)
      ((avColumns (normalizeVars (AccState.mk [("G1", [("pr_A", (1 : Int))])]
        ["pr_A", "A_AC"]).allVars)).map Prod.fst) :=
  ⟨(C7_row_and_column_order ⟨[("G1", [("pr_A", 1)])], ["pr_A", "A_AC"]⟩ (by decide)).2.1,
   (C7_row_and_column_order ⟨[("G1", [("pr_A", 1)])], ["pr_A", "A_AC"]⟩
      (by decide)).2.2.2.2.1⟩

/-! ## Helper lemmas: the input loop -/

theorem processLines_error_at (env : ParserEnv) (pre : List String) (raw : String)
    (post : List String) (idx : Nat) (st : AccState)
    (hok : ∀ r ∈ pre, rstripCR (pyStrip r) = "" ∨
      sStartsWith (rstripCR (pyStrip r)) "#" = true ∨
      (env (rewriteLine (rstripCR (pyStrip r)))).returncode = 0)
    (hne : rstripCR (pyStrip raw) ≠ "")
    (hnc : sStartsWith (rstripCR (pyStrip raw)) "#" = false)
    (hrc : (env (rewriteLine (rstripCR (pyStrip raw)))).returncode ≠ 0) :
    processLines env (pre ++ raw :: post) idx st
      = .error ((env (rewriteLine (rstripCR (pyStrip raw)))).returncode,
          failMsg (env (rewriteLine (rstripCR (pyStrip raw)))).returncode (idx + pre.length)
            (rewriteLine (rstripCR (pyStrip raw)))
            (env (rewriteLine (rstripCR (pyStrip raw)))).stderr) := by
  induction pre generalizing idx st with
  | nil =>
    rw [List.nil_append]
    unfold processLines
    rw [if_neg (by simp [hne, hnc])]
    rw [if_pos hrc]
    rfl
  | cons r pre ih =>
    have hr := hok r (List.mem_cons_self _ _)
    have hrest : ∀ q ∈ pre, rstripCR (pyStrip q) = "" ∨
        sStartsWith (rstripCR (pyStrip q)) "#" = true ∨
        (env (rewriteLine (rstripCR (pyStrip q)))).returncode = 0 :=
      fun q hq => hok q (List.mem_cons_of_mem _ hq)
    have hlen : idx + (r :: pre).length = (idx + 1) + pre.length := by
      simp [List.length_cons]; omega
    rw [List.cons_append, hlen]
    unfold processLines
    by_cases hskip : rstripCR (pyStrip r) = "" ∨ sStartsWith (rstripCR (pyStrip r)) "#" = true
    · rw [if_pos (by rcases hskip with h | h <;> simp [h])]
      exact ih (idx + 1) st hrest
    · rw [if_neg (by
        push_neg at hskip
        simp [hskip.1, hskip.2])]
      have hzero : (env (rewriteLine (rstripCR (pyStrip r)))).returncode = 0 := by
        push_neg at hskip
        rcases hr with h | h | h
        · exact absurd h hskip.1
        · rw [h] at hskip; exact absurd rfl hskip.2
        · exact h
      rw [if_neg (by simp [hzero])]
      exact ih (idx + 1) _ hrest

/-- Claim C2: if the external parser exits nonzero on the first
non-skipped line it reaches, the whole run yields that exit code and a
stderr diagnostic carrying the 1-based line number and the line text,
and no TSV is produced (the result is `.error`, never `.ok`). -/
theorem C2_fail_fast (env : ParserEnv) (pre : List String) (raw : String)
    (post : List String)
    (hok : ∀ r ∈ pre, rstripCR (pyStrip r) = "" ∨
      sStartsWith (rstripCR (pyStrip r)) "#" = true ∨
      (env (rewriteLine (rstripCR (pyStrip r)))).returncode = 0)
    (hne : rstripCR (pyStrip raw) ≠ "")
    (hnc : sStartsWith (rstripCR (pyStrip raw)) "#" = false)
    (hrc : (env (rewriteLine (rstripCR (pyStrip raw)))).returncode ≠ 0) :
    runModel env (pre ++ raw :: post)
      = .error ((env (rewriteLine (rstripCR (pyStrip raw)))).returncode,
          failMsg (env (rewriteLine (rstripCR (pyStrip raw)))).returncode (1 + pre.length)
            (rewriteLine (rstripCR (pyStrip raw)))
            (env (rewriteLine (rstripCR (pyStrip raw)))).stderr) ∧
    ∃ s₁ s₂ : String,
      failMsg (env (rewriteLine (rstripCR (pyStrip raw)))).returncode (1 + pre.length)
          (rewriteLine (rstripCR (pyStrip raw)))
          (env (rewriteLine (rstripCR (pyStrip raw)))).stderr
        = s₁ ++ ("line " ++ toString (1 + pre.length) ++ ": "
            ++ rewriteLine (rstripCR (pyStrip raw))) ++ s₂ := by
  constructor
  · unfold runModel
    rw [processLines_error_at env pre raw post 1 ⟨[], []⟩ hok hne hnc hrc]
  · refine ⟨"Parser failed (exit "
      ++ toString (env (rewriteLine (rstripCR (pyStrip raw)))).returncode ++ ") for ",
      "\nSTDERR:\n" ++ (env (rewriteLine (rstripCR (pyStrip raw)))).stderr, ?_⟩
    apply String.ext
    simp [failMsg, String.data_append, List.append_assoc]

/-- Witness for C2: exit code 3 on the second raw line (the first is a
comment) aborts the run with code 3 and a `line 2` diagnostic. -/
theorem C2_witness :
    runModel (fun _ => ⟨3, "", "boom"⟩) (["# skip"] ++ "bad" :: ["later"])
      = .error ((3 : Int), failMsg 3 (1 + (["# skip"] : List String).length)
          (rewriteLine (rstripCR (pyStrip "bad"))) "boom") :=
  (C2_fail_fast (fun _ => ⟨3, "", "boom"⟩) ["# skip"] "bad" ["later"]
    (by decide) (by decide) (by decide) (by decide)).1

/-- Claim C8: a non-empty non-comment line of the form `label: rest` is
rewritten to `label rest` (only the first colon separates; later colons
stay inside `rest`), and the rewritten string is the only point at
which the external parser is consulted for that line. -/
theorem processLines_single (env : ParserEnv) (raw : String) (idx : Nat) (st : AccState)
    (hne : rstripCR (pyStrip raw) ≠ "")
    (hnc : sStartsWith (rstripCR (pyStrip raw)) "#" = false) :
    processLines env [raw] idx st =
      if (env (rewriteLine (rstripCR (pyStrip raw)))).returncode ≠ 0 then
        .error ((env (rewriteLine (rstripCR (pyStrip raw)))).returncode,
          failMsg (env (rewriteLine (rstripCR (pyStrip raw)))).returncode idx
            (rewriteLine (rstripCR (pyStrip raw)))
            (env (rewriteLine (rstripCR (pyStrip raw)))).stderr)
      else .ok (processStdout (env (rewriteLine (rstripCR (pyStrip raw)))).stdout st) := by
  unfold processLines
  rw [if_neg (by simp [hne, hnc])]
  rfl

theorem takeWhile_append_sentinel {α : Type} (p : α → Bool) (a : α) (l₁ l₂ : List α)
    (h : ∀ c ∈ l₁, p c = true) (ha : p a = false) :
    (l₁ ++ a :: l₂).takeWhile p = l₁ ∧ (l₁ ++ a :: l₂).dropWhile p = a :: l₂ := by
  induction l₁ with
  | nil => simp [List.takeWhile_cons, List.dropWhile_cons, ha]
  | cons c cs ih =>
    have hc := h c (List.mem_cons_self _ _)
    have ihh := ih fun d hd => h d (List.mem_cons_of_mem _ hd)
    simp [List.takeWhile_cons, List.dropWhile_cons, hc, ihh.1, ihh.2]

theorem C8_colon_rewrite (label rest : String) (hnc : ∀ c ∈ label.data, c ≠ ':') :
    rewriteLine (label ++ ":" ++ rest) = pyStrip label ++ " " ++ pyStrip rest ∧
    (∀ (env env' : ParserEnv) (raw : String) (idx : Nat) (st : AccState),
      rstripCR (pyStrip raw) ≠ "" →
      sStartsWith (rstripCR (pyStrip raw)) "#" = false →
      env (rewriteLine (rstripCR (pyStrip raw)))
        = env' (rewriteLine (rstripCR (pyStrip raw))) →
      processLines env [raw] idx st = processLines env' [raw] idx st) := by
  constructor
  · have hd : (label ++ ":" ++ rest).data = label.data ++ ':' :: rest.data := by
      rw [String.data_append, String.data_append,
        show (":" : String).data = [':'] from rfl]
      simp
    have hmem : ':' ∈ (label ++ ":" ++ rest).data := by
      rw [hd]
      exact List.mem_append_right _ (List.mem_cons_self _ _)
    have hsent := takeWhile_append_sentinel ((· ≠ ':') : Char → Bool) ':'
      label.data rest.data (fun c hc => by simp [hnc c hc]) (by simp)
    simp only [rewriteLine, hd, hsent.1, hsent.2]
    rw [if_pos (List.mem_append_right _ (List.mem_cons_self ':' rest.data) :
      ':' ∈ label.data ++ ':' :: rest.data)]
    rfl
  · intro env env' raw idx st hne hnc' henv
    rw [processLines_single env raw idx st hne hnc',
      processLines_single env' raw idx st hne hnc', henv]

/-- Witness for C8: a labelled rule with a second colon in its body,
and two parsers that agree on the rewritten line `r1`. -/
theorem C8_witness :
    rewriteLine ("GENE" ++ ":" ++ " (a) : b") = pyStrip "GENE" ++ " " ++ pyStrip " (a) : b" ∧
    processLines (fun _ => ⟨0, "", ""⟩) ["r1"] 1 ⟨[], []⟩
      = processLines (fun s => if s = "r1" then ⟨0, "", ""⟩ else ⟨7, "x", "y"⟩)
          ["r1"] 1 ⟨[], []⟩ :=
  ⟨(C8_colon_rewrite "GENE" " (a) : b" (by decide)).1,
   (C8_colon_rewrite "GENE" " (a) : b" (by decide)).2
     (fun _ => ⟨0, "", ""⟩) (fun s => if s = "r1" then ⟨0, "", ""⟩ else ⟨7, "x", "y"⟩)
     "r1" 1 ⟨[], []⟩ (by decide) (by decide) rfl⟩

/-- Claim C9: the tool is a pure function of the input lines and the
external parser's behavior — two runs agree byte for byte. -/
theorem C9_deterministic (env : ParserEnv) (lines : List String)
    (o₁ o₂ : Except (Int × String) String)
    (h₁ : runModel env lines = o₁) (h₂ : runModel env lines = o₂) : o₁ = o₂ :=
  h₁.symm.trans h₂

/-- Witness for C9 at the empty input, whose matrix is the bare header. -/
theorem C9_witness : (Except.ok "variable\n" : Except (Int × String) String)
    = Except.ok "variable\n" :=
  C9_deterministic (fun _ => ⟨0, "", ""⟩) [] _ _ rfl rfl

/-- Witness for C6 at concrete inputs, one per precedence case. -/
theorem C6_witness :
    protein_base "X_AC" = none ∧
    (protein_base "NOT_pr_X" = some (sDrop "NOT_pr_X" 7)
      ∧ "NOT_pr_X" = "NOT_pr_" ++ sDrop "NOT_pr_X" 7) ∧
    (protein_base "pr_X" = some (sDrop "pr_X" 3)
      ∧ "pr_X" = "pr_" ++ sDrop "pr_X" 3) ∧
    (protein_base "NOT_X" = some (sDrop "NOT_X" 4)
      ∧ "NOT_X" = "NOT_" ++ sDrop "NOT_X" 4) ∧
    protein_base "plain" = none :=
  ⟨(C6_protein_base_precedence "X_AC").1 (by decide),
   (C6_protein_base_precedence "NOT_pr_X").2.1 (by decide) (by decide),
   (C6_protein_base_precedence "pr_X").2.2.1 (by decide) (by decide) (by decide),
   (C6_protein_base_precedence "NOT_X").2.2.2.1 (by decide) (by decide) (by decide) (by decide),
   (C6_protein_base_precedence "plain").2.2.2.2 (by decide) (by decide) (by decide) (by decide)⟩

end Trn
